import Mathlib

/-!
Verification of the Chat-to-Media rendering engine of
`chat-story-maker-app` (`src/server/renderer.py`, `src/server/main.py`,
`src/server/models.py`).

The Python code is shallowly embedded: pure fragments become Lean
functions, the stateful render loop becomes explicit state passing, and
real-valued arithmetic (Python floats) is modelled over `ℚ`.  For every
quantity on which a claim depends (`frames_per_char`, the clamped
typing/reading durations multiplied by the frame rate and truncated by
`int()`), IEEE-double evaluation and exact rational evaluation agree on
the whole input range in question, so the `ℚ` model is faithful.
-/

namespace ChatStory

/-! ## Data model — `src/server/models.py` -/

/-- The `TypingSpeed` enum (`models.py`). -/
inductive TypingSpeed where
  | slow
  | normal
  | fast
deriving DecidableEq, Repr

/-- A `Character` (`models.py`); only the fields the renderer logic reads. -/
structure Character where
  id : String
  name : String
  is_me : Bool
deriving DecidableEq, Repr

/-- A `Message` (`models.py`).  Text carried as a character list. -/
structure Message where
  id : String
  text : List Char
  character_id : String
deriving DecidableEq, Repr

/-- The `ExportSettings` (`models.py`); fields used by the render loop. -/
structure ExportSettings where
  typing_speed : TypingSpeed
  show_keyboard : Bool
  show_typing_indicator : Bool
  enable_sounds : Bool
  dark_mode : Bool
deriving DecidableEq, Repr

/-- A `RenderRequest` (`models.py`); fields used by the render loop. -/
structure RenderRequest where
  messages : List Message
  characters : List Character
  settings : ExportSettings
  is_group_chat : Bool
deriving DecidableEq, Repr

/-! ## Constants — `renderer.py` lines 58-80 -/

/-- The frame rate: `FPS = 30` (`renderer.py` line 75). -/
def FPS : ℕ := 30

/-- The `TYPING_SPEEDS` table (`renderer.py` lines 69-73): seconds per character.
`0.20 = 1/5`, `0.12 = 3/25`, `0.06 = 3/50`. -/
def TYPING_SPEEDS : TypingSpeed → ℚ
  | .slow => 1 / 5
  | .normal => 3 / 25
  | .fast => 3 / 50

/-- Python `int()` on a nonnegative float truncates toward zero, which is
the floor.  All uses below apply it to nonnegative quantities. -/
def pyInt (q : ℚ) : ℕ := (⌊q⌋).toNat

/-- Code: `self.frames_per_char = max(1, int(self.typing_speed * FPS))`
(`renderer.py` line 176).  `int()` truncates; IEEE doubles give
`0.20*30 = 6.0`, `0.12*30 = 3.5999999999999996`, `0.06*30 = 1.7999999999999998`,
whose truncations agree with the exact rational floors `6`, `3`, `1`. -/
def frames_per_char (s : TypingSpeed) : ℕ :=
  max 1 (pyInt (TYPING_SPEEDS s * (FPS : ℚ)))

/-- The spec's formula for C1 (`spec.md` §4.2):
`frames_per_char = max(1, round(seconds_per_char × fps))`. -/
def specFramesPerChar (s : TypingSpeed) : ℕ :=
  max 1 (round (TYPING_SPEEDS s * (FPS : ℚ))).toNat

/-! ## Character lookup — `renderer.py` lines 124, 185-187

`self.characters = {c.id: c for c in request.characters}` builds a dict in
which a later character with the same id overwrites an earlier one, and
`get_character` is a dict lookup, hence: last match wins. -/

/-- Lookup `VideoRenderer.get_character` (`renderer.py` lines 185-187). -/
def get_character (chars : List Character) (cid : String) : Option Character :=
  chars.reverse.find? (fun c => c.id == cid)

/-- Code: `is_me = character.is_me if character else True`
(`renderer.py` lines 308-309): a message whose `character_id` resolves to
no known character is treated as self-authored. -/
def resolved_is_me (chars : List Character) (m : Message) : Bool :=
  match get_character chars m.character_id with
  | some c => c.is_me
  | none => true

/-! ## Timeline durations — `renderer.py` lines 360-361, 385-386 -/

/-- Code: `typing_duration = min(max(len(message.text) / 20.0, 1.5), 2.5)` and
`typing_frames = int(typing_duration * FPS)` (`renderer.py` lines 360-361).
IEEE-double and exact-rational evaluation agree on this truncation for
every text length up to 2000 (checked exhaustively), so the `ℚ` model is
faithful. -/
def typing_frames (len : ℕ) : ℕ :=
  pyInt (min (max ((len : ℚ) / 20) (3 / 2)) (5 / 2) * (FPS : ℚ))

/-- Code: `reading_time = min(max(len(message.text) / 25.0, 1.5), 3.0)` and
`pause_frames = int(reading_time * FPS)` (`renderer.py` lines 385-386). -/
def pause_frames (len : ℕ) : ℕ :=
  pyInt (min (max ((len : ℚ) / 25) (3 / 2)) 3 * (FPS : ℚ))

/-! ## The render loop — `VideoRenderer.render` (`renderer.py` lines 294-446)

The loop is embedded as explicit state passing.  Pixel buffers are not
modelled; the state tracks exactly what the claims depend on: the running
`frame_count`, the `message_timings` list used for audio cues, and the
ordered list of values passed to `progress_callback`. -/

/-- One audio-cue record appended to `self.message_timings`
(`renderer.py` lines 348-352 and 374-378). -/
structure MessageTiming where
  message_id : String
  time : ℚ
  is_me : Bool
deriving DecidableEq, Repr

/-- Mutable state of the render loop. -/
structure RenderState where
  frame_count : ℕ
  message_timings : List MessageTiming
  progress : List ℚ
deriving DecidableEq, Repr

/-- The progress values issued inside the per-character typing loop
(`renderer.py` lines 333-335): at every `char_index` divisible by 3,
`base + (char_index / total_chars * 0.6) * range`. -/
def typingCallbacks (L : ℕ) (base range : ℚ) : List ℚ :=
  let ks : List ℕ := ((List.range L).map (· + 1)).filter (fun k => k % 3 == 0)
  ks.map (fun k : ℕ => base + ((k : ℚ) / (L : ℚ) * (3 / 5)) * range)

/-- The body of the per-message loop (`renderer.py` lines 307-399):
index `i`, total message count `N`, `fpc = frames_per_char`.

* self-authored branch (lines 314-357): one frame per character repeated
  `fpc` times, a 10-frame reveal-complete hold, then the audio-cue record
  at the *current* (post-hold) `frame_count / FPS`;
* received branch (lines 359-383): `typing_frames` indicator frames, then
  the audio-cue record at the post-indicator `frame_count / FPS`;
* both branches end with `pause_frames` reading-pause frames and the
  progress callbacks at `base + 0.8*range` and `base + range`. -/
def messageStep (chars : List Character) (fpc N : ℕ) (i : ℕ)
    (st : RenderState) (m : Message) : RenderState :=
  let is_me := resolved_is_me chars m
  let base : ℚ := 1 / 20 + (i : ℚ) / (N : ℚ) * (3 / 4)
  let range : ℚ := 3 / 4 / (N : ℚ)
  let L := m.text.length
  if is_me then
    let fc : ℕ := st.frame_count + L * fpc + 10
    { frame_count := fc + pause_frames L
      message_timings := st.message_timings ++ [⟨m.id, (fc : ℚ) / (FPS : ℚ), is_me⟩]
      progress := st.progress ++ typingCallbacks L base range
        ++ [base + 4 / 5 * range, base + range] }
  else
    let fc : ℕ := st.frame_count + typing_frames L
    { frame_count := fc + pause_frames L
      message_timings := st.message_timings ++ [⟨m.id, (fc : ℚ) / (FPS : ℚ), is_me⟩]
      progress := st.progress ++ [base + 4 / 5 * range, base + range] }

/-- Result of `VideoRenderer.render`: total frame count of the encoded
video, the audio-cue list, and the progress values reported in order. -/
structure RenderOutput where
  frame_count : ℕ
  message_timings : List MessageTiming
  progress : List ℚ
deriving DecidableEq, Repr

/-- Model of `VideoRenderer.render` (`renderer.py` lines 294-446).  The Python body
raises no exception on any input modelled here: the division
`index / total_messages` executes only inside the per-message loop (so
only when the list is nonempty), and encoder I/O is outside the model; the
`Except` result records that the renderer performs no input validation.
Sequence: progress `0.02`, `0.05`; the per-message loop; progress `0.82`;
60 trailing-hold frames; progress `0.85`, `0.88`; `0.95` when sounds are
enabled; progress `1.0`. -/
def render (req : RenderRequest) : Except String RenderOutput :=
  let N := req.messages.length
  let fpc := frames_per_char req.settings.typing_speed
  let st0 : RenderState := ⟨0, [], [1 / 50, 1 / 20]⟩
  let st := req.messages.enum.foldl
    (fun s p => messageStep req.characters fpc N p.1 s p.2) st0
  .ok
    { frame_count := st.frame_count + 60
      message_timings := st.message_timings
      progress := st.progress ++ [41 / 50, 17 / 20, 22 / 25]
        ++ (if req.settings.enable_sounds then [19 / 20] else []) ++ [1] }

/-! ## Closed-form descriptions of the loop state (spec side) -/

/-- Frames emitted up to (and including) the point where message `m`
becomes fully visible: the whole per-character reveal plus the 10-frame
hold for self messages, the typing-indicator hold for received ones. -/
def revealFrames (fpc : ℕ) (chars : List Character) (m : Message) : ℕ :=
  if resolved_is_me chars m then m.text.length * fpc + 10
  else typing_frames m.text.length

/-- Total frames one message contributes to the video. -/
def msgFrames (fpc : ℕ) (chars : List Character) (m : Message) : ℕ :=
  revealFrames fpc chars m + pause_frames m.text.length

/-- Cumulative frame count consumed by the messages before index `i`. -/
def framesBefore (fpc : ℕ) (chars : List Character)
    (msgs : List Message) (i : ℕ) : ℕ :=
  ((msgs.take i).map (msgFrames fpc chars)).sum

/-- Recursive description of `message_timings`: starting from frame count
`fc0`, each message records a cue at `(fc0 + revealFrames) / FPS` tagged
with its resolved `is_me` flag. -/
def timingsSpec (fpc : ℕ) (chars : List Character) (fc0 : ℕ) :
    List Message → List MessageTiming
  | [] => []
  | m :: rest =>
      ⟨m.id, ((fc0 + revealFrames fpc chars m : ℕ) : ℚ) / (FPS : ℚ),
        resolved_is_me chars m⟩ ::
      timingsSpec fpc chars (fc0 + msgFrames fpc chars m) rest

/-- Progress `base` for message index `i` of `N`:
`0.05 + (i / N) * 0.75` (`renderer.py` line 311). -/
def baseQ (N i : ℕ) : ℚ := 1 / 20 + (i : ℚ) / (N : ℚ) * (3 / 4)

/-- The progress values one message contributes. -/
def msgProgress (N : ℕ) (chars : List Character) (i : ℕ) (m : Message) :
    List ℚ :=
  (if resolved_is_me chars m then
    typingCallbacks m.text.length (baseQ N i) (3 / 4 / (N : ℚ))
  else []) ++
  [baseQ N i + 4 / 5 * (3 / 4 / (N : ℚ)), baseQ N i + 3 / 4 / (N : ℚ)]

/-- Recursive description of the progress values of the whole loop,
starting at message index `i0`. -/
def progSpec (N : ℕ) (chars : List Character) (i0 : ℕ) :
    List Message → List ℚ
  | [] => []
  | m :: rest => msgProgress N chars i0 m ++ progSpec N chars (i0 + 1) rest

/-- The fold computing the render-loop state equals its closed-form
description componentwise. -/
theorem foldl_messageStep (chars : List Character) (fpc N : ℕ) :
    ∀ (msgs : List Message) (i0 : ℕ) (st : RenderState),
    (List.enumFrom i0 msgs).foldl
        (fun s p => messageStep chars fpc N p.1 s p.2) st =
      ⟨st.frame_count + (msgs.map (msgFrames fpc chars)).sum,
       st.message_timings ++ timingsSpec fpc chars st.frame_count msgs,
       st.progress ++ progSpec N chars i0 msgs⟩ := by
  intro msgs
  induction msgs with
  | nil => intro i0 st; simp [timingsSpec, progSpec]
  | cons m rest ih =>
      intro i0 st
      simp only [List.enumFrom, List.foldl_cons, ih]
      cases hme : resolved_is_me chars m with
      | true =>
          simp [messageStep, hme, timingsSpec, progSpec, msgProgress,
            msgFrames, revealFrames, msgProgress, baseQ, Nat.add_assoc,
            List.append_assoc]
      | false =>
          simp [messageStep, hme, timingsSpec, progSpec, msgProgress,
            msgFrames, revealFrames, msgProgress, baseQ, Nat.add_assoc,
            List.append_assoc]

theorem timingsSpec_length (fpc : ℕ) (chars : List Character) :
    ∀ (msgs : List Message) (fc0 : ℕ),
      (timingsSpec fpc chars fc0 msgs).length = msgs.length := by
  intro msgs
  induction msgs with
  | nil => intro fc0; simp [timingsSpec]
  | cons m rest ih => intro fc0; simp [timingsSpec, ih]

theorem timingsSpec_get (fpc : ℕ) (chars : List Character) :
    ∀ (msgs : List Message) (fc0 i : ℕ)
      (h : i < (timingsSpec fpc chars fc0 msgs).length) (h' : i < msgs.length),
      (timingsSpec fpc chars fc0 msgs).get ⟨i, h⟩ =
        ⟨(msgs.get ⟨i, h'⟩).id,
         ((fc0 + framesBefore fpc chars msgs i +
             revealFrames fpc chars (msgs.get ⟨i, h'⟩) : ℕ) : ℚ) / (FPS : ℚ),
         resolved_is_me chars (msgs.get ⟨i, h'⟩)⟩ := by
  intro msgs
  induction msgs with
  | nil => intro fc0 i h h'; simp at h'
  | cons m rest ih =>
      intro fc0 i h h'
      cases i with
      | zero => simp [timingsSpec, framesBefore]
      | succ i =>
          have hr : i < rest.length := by
            simpa using Nat.lt_of_succ_lt_succ h'
          have hs : i < (timingsSpec fpc chars (fc0 + msgFrames fpc chars m) rest).length := by
            rw [timingsSpec_length]; exact hr
          have := ih (fc0 + msgFrames fpc chars m) i hs hr
          simp only [timingsSpec, List.get_cons_succ] at this ⊢
          rw [this]
          have hfb : framesBefore fpc chars (m :: rest) (i + 1) =
              msgFrames fpc chars m + framesBefore fpc chars rest i := by
            simp [framesBefore, List.take_succ_cons]
          simp [hfb, Nat.add_assoc]

/-- Lemma: `render` unfolded through `foldl_messageStep`: the three output
components in closed form. -/
theorem render_components (req : RenderRequest) (out : RenderOutput)
    (hout : render req = .ok out) :
    out.frame_count =
      (req.messages.map
        (msgFrames (frames_per_char req.settings.typing_speed) req.characters)).sum + 60 ∧
    out.message_timings =
      timingsSpec (frames_per_char req.settings.typing_speed) req.characters 0
        req.messages ∧
    out.progress =
      [1 / 50, 1 / 20] ++
        progSpec req.messages.length req.characters 0 req.messages ++
        ([41 / 50, 17 / 20, 22 / 25] ++
          (if req.settings.enable_sounds then [19 / 20] else []) ++ [1]) := by
  have : render req = .ok
      ⟨(req.messages.map
          (msgFrames (frames_per_char req.settings.typing_speed) req.characters)).sum + 60,
       timingsSpec (frames_per_char req.settings.typing_speed) req.characters 0
         req.messages,
       [1 / 50, 1 / 20] ++
         progSpec req.messages.length req.characters 0 req.messages ++
         ([41 / 50, 17 / 20, 22 / 25] ++
           (if req.settings.enable_sounds then [19 / 20] else []) ++ [1])⟩ := by
    simp only [render, List.enum, foldl_messageStep]
    simp [Nat.add_comm, List.append_assoc]
  rw [this] at hout
  cases hout
  simp

/-! ## Claim C1 — frames-per-character constant -/

/-- C1, counterexample.  The code computes
`frames_per_char = max(1, int(speed * FPS))` with truncating `int()`
(`renderer.py` line 176); at "normal" speed (`0.12 s/char`) this is `3`,
while the claimed formula `max(1, round(s × 30))` gives `4`.  The claim
that the two agree for every speed setting is therefore false. -/
theorem c1_frames_per_char_counterexample :
    frames_per_char .normal = 3 ∧ specFramesPerChar .normal = 4 := by
  constructor
  · unfold frames_per_char pyInt TYPING_SPEEDS FPS
    norm_num [Int.toNat_ofNat] <;> decide
  · unfold specFramesPerChar TYPING_SPEEDS FPS
    norm_num [round_eq, Int.toNat_ofNat] <;> decide

theorem frames_per_char_slow : frames_per_char .slow = 6 := by
  unfold frames_per_char pyInt TYPING_SPEEDS FPS
  norm_num [Int.toNat_ofNat] <;> decide

theorem frames_per_char_normal : frames_per_char .normal = 3 := by
  unfold frames_per_char pyInt TYPING_SPEEDS FPS
  norm_num [Int.toNat_ofNat] <;> decide

theorem frames_per_char_fast : frames_per_char .fast = 1 := by
  unfold frames_per_char pyInt TYPING_SPEEDS FPS
  norm_num [Int.toNat_ofNat] <;> decide

/-- C1, amended: the renderer's frames-per-character constant equals
`max(1, ⌊s × 30⌋)` (truncation, not rounding): 6 frames/char at "slow"
(0.20 s/char), 3 at "normal" (0.12 s/char), 1 at "fast" (0.06 s/char). -/
theorem c1_frames_per_char_amended :
    frames_per_char .slow = 6 ∧ frames_per_char .normal = 3 ∧
      frames_per_char .fast = 1 :=
  ⟨frames_per_char_slow, frames_per_char_normal, frames_per_char_fast⟩

/-! ## `get?`-indexed description of the cue list -/

theorem timingsSpec_get? (fpc : ℕ) (chars : List Character) :
    ∀ (msgs : List Message) (fc0 i : ℕ) (m : Message),
      msgs.get? i = some m →
      (timingsSpec fpc chars fc0 msgs).get? i =
        some ⟨m.id,
          ((fc0 + framesBefore fpc chars msgs i +
              revealFrames fpc chars m : ℕ) : ℚ) / (FPS : ℚ),
          resolved_is_me chars m⟩ := by
  intro msgs
  induction msgs with
  | nil => intro fc0 i m hm; simp at hm
  | cons m0 rest ih =>
      intro fc0 i m hm
      cases i with
      | zero =>
          simp only [List.get?_cons_zero, Option.some.injEq] at hm
          subst hm
          simp [timingsSpec, framesBefore]
      | succ i =>
          simp only [List.get?_cons_succ] at hm
          have := ih (fc0 + msgFrames fpc chars m0) i m hm
          simp only [timingsSpec, List.get?_cons_succ]
          rw [this]
          have hfb : framesBefore fpc chars (m0 :: rest) (i + 1) =
              msgFrames fpc chars m0 + framesBefore fpc chars rest i := by
            simp [framesBefore, List.take_succ_cons]
          simp [hfb, Nat.add_assoc]

/-! ## Concrete inputs used by counterexamples and witnesses -/

/-- Default export settings of `models.py` (`ExportSettings` defaults). -/
def stdSettings : ExportSettings := ⟨.normal, true, true, true, false⟩

/-- A self character. -/
def alice : Character := ⟨"alice", "Alice", true⟩

/-- A two-character self-authored message. -/
def selfMsg : Message := ⟨"m1", ['h', 'i'], "alice"⟩

/-- A one-message conversation authored by the self character. -/
def selfReq : RenderRequest := ⟨[selfMsg], [alice], stdSettings, false⟩

/-- A request with an empty message list. -/
def emptyReq : RenderRequest := ⟨[], [], stdSettings, false⟩

/-- A message whose `character_id` matches no character. -/
def ghostMsg : Message := ⟨"g1", ['h', 'i'], "ghost"⟩

/-- A request whose only message references an unknown character id. -/
def ghostReq : RenderRequest := ⟨[ghostMsg], [], stdSettings, false⟩

/-! ## Claim C2 — audio-cue times -/

/-- C2, counterexample.  For a single self-authored two-character message
at "normal" speed the reveal takes `2 × 3 = 6` frames, so the claimed cue
time — cumulative frame count at the *start* of the 10-frame
reveal-complete hold, ÷ fps — is `6/30 = 1/5`.  The code records the cue
*after* the hold (`renderer.py` lines 337-347: the ten hold frames are
appended before `message_time = frame_count / FPS`), at `16/30 = 8/15`. -/
theorem c2_audio_cue_counterexample :
    (∃ out, render selfReq = .ok out ∧
      out.message_timings.map MessageTiming.time = [8 / 15]) ∧
    ((framesBefore (frames_per_char .normal) selfReq.characters selfReq.messages 0 +
        selfMsg.text.length * frames_per_char .normal : ℕ) : ℚ) / (FPS : ℚ) = 1 / 5 ∧
    (8 / 15 : ℚ) ≠ 1 / 5 := by
  have hme : resolved_is_me selfReq.characters selfMsg = true := by decide
  refine ⟨⟨_, rfl, ?_⟩, ?_, by norm_num⟩
  · have h := (render_components selfReq _ rfl).2.1
    rw [h]
    have hget := timingsSpec_get? (frames_per_char selfReq.settings.typing_speed)
      selfReq.characters selfReq.messages 0 0 selfMsg rfl
    have : selfReq.messages = [selfMsg] := rfl
    rw [this] at hget ⊢
    simp only [timingsSpec, List.map_cons, List.map_nil]
    have hfpc : frames_per_char selfReq.settings.typing_speed = 3 :=
      frames_per_char_normal
    simp only [hfpc, revealFrames, hme, if_true]
    norm_num [FPS, selfMsg]
  · have hfpc : frames_per_char TypingSpeed.normal = 3 := frames_per_char_normal
    simp only [hfpc, framesBefore]
    norm_num [FPS, selfMsg, selfReq]

/-- C2, amended.  The recorded cue time equals (cumulative frame count at
the *end* of the phase that makes the message fully visible) ÷ fps: for a
self-authored message the end of the 10-frame reveal-complete hold, for a
received message the end of the typing-indicator hold; the cue is tagged
`is_me = true` for self (send) and `false` for others (receive). -/
theorem c2_audio_cue_amended (req : RenderRequest) (out : RenderOutput)
    (hout : render req = .ok out) (i : ℕ) (m : Message)
    (hm : req.messages.get? i = some m) :
    out.message_timings.get? i =
      some ⟨m.id,
        ((framesBefore (frames_per_char req.settings.typing_speed) req.characters
            req.messages i +
          revealFrames (frames_per_char req.settings.typing_speed) req.characters
            m : ℕ) : ℚ) / (FPS : ℚ),
        resolved_is_me req.characters m⟩ := by
  have htim := (render_components req out hout).2.1
  rw [htim]
  have h := timingsSpec_get? (frames_per_char req.settings.typing_speed)
    req.characters req.messages 0 i m hm
  rw [h]
  simp

/-- Witness for C2 (amended) at `selfReq`: the single cue is recorded at
`(0 + (2·3 + 10))/30 = 8/15` seconds and tagged as sent. -/
theorem c2_audio_cue_amended_witness :
    ∃ out, render selfReq = .ok out ∧
      out.message_timings.get? 0 = some ⟨"m1", 8 / 15, true⟩ := by
  obtain ⟨out, hout⟩ : ∃ o, render selfReq = .ok o := ⟨_, rfl⟩
  have h := c2_audio_cue_amended selfReq out hout 0 selfMsg rfl
  refine ⟨out, hout, ?_⟩
  rw [h]
  have hme : resolved_is_me selfReq.characters selfMsg = true := by decide
  have hfpc : frames_per_char selfReq.settings.typing_speed = 3 :=
    frames_per_char_normal
  simp only [hfpc, revealFrames, hme, if_true, framesBefore]
  norm_num [FPS, selfMsg]

/-! ## Claim C5 — input validation -/

/-- C5, counterexample.  A request with an *empty* message list does not
fail: `VideoRenderer.render` runs the (empty) loop, appends the 60-frame
trailing hold and encodes a video, reporting full progress.  No error is
raised and an artifact is produced, contradicting the claim that the job
fails immediately with a descriptive error. -/
theorem c5_validation_counterexample :
    render emptyReq =
      .ok ⟨60, [], [1 / 50, 1 / 20, 41 / 50, 17 / 20, 22 / 25, 19 / 20, 1]⟩ := by
  simp [render, emptyReq, stdSettings, List.enum]

/-- C5, amended.  The renderer performs no input validation: every
request — in particular one with an empty message list or an unknown
`character_id` (see C10) — renders successfully; an empty conversation
produces exactly the 60-frame trailing hold and no audio cues. -/
theorem c5_no_validation_amended (req : RenderRequest) :
    ∃ out, render req = .ok out ∧
      (req.messages = [] → out.frame_count = 60 ∧ out.message_timings = []) := by
  refine ⟨_, rfl, ?_⟩
  intro h
  have hc := render_components req _ rfl
  rcases hc with ⟨hfc, htim, -⟩
  constructor
  · rw [hfc, h]; simp
  · rw [htim, h]; simp [timingsSpec]

/-- Witness for C5 (amended) at the concrete empty request. -/
theorem c5_no_validation_amended_witness :
    ∃ out, render emptyReq = .ok out ∧
      out.frame_count = 60 ∧ out.message_timings = [] := by
  obtain ⟨out, hout, himp⟩ := c5_no_validation_amended emptyReq
  exact ⟨out, hout, himp rfl⟩

/-! ## Claim C10 — unknown character ids are treated as self-authored -/

/-- C10.  A message whose `character_id` resolves to no known character
does not make `render` raise: `is_me = character.is_me if character else
True` (`renderer.py` lines 308-309) routes it through the self-authored
branch, so its cue is recorded after the per-character keyboard reveal
(`L × frames_per_char` frames) plus the 10-frame hold, tagged
`is_me = true` (send sound). -/
theorem c10_unknown_character_is_self (req : RenderRequest) (i : ℕ) (m : Message)
    (hm : req.messages.get? i = some m)
    (hnone : get_character req.characters m.character_id = none) :
    ∃ out, render req = .ok out ∧
      out.message_timings.get? i =
        some ⟨m.id,
          ((framesBefore (frames_per_char req.settings.typing_speed) req.characters
              req.messages i +
            (m.text.length * frames_per_char req.settings.typing_speed + 10) : ℕ) : ℚ) /
            (FPS : ℚ),
          true⟩ := by
  have hme : resolved_is_me req.characters m = true := by
    unfold resolved_is_me
    rw [hnone]
  refine ⟨_, rfl, ?_⟩
  have htim := (render_components req _ rfl).2.1
  rw [htim]
  have h := timingsSpec_get? (frames_per_char req.settings.typing_speed)
    req.characters req.messages 0 i m hm
  rw [h]
  simp [revealFrames, hme]

/-- Witness for C10 at `ghostReq`: the unknown-character message is
animated as self-typed (`2 × 3 + 10 = 16` frames) and its cue is tagged
as sent at `16/30 = 8/15` seconds. -/
theorem c10_unknown_character_witness :
    ∃ out, render ghostReq = .ok out ∧
      out.message_timings.get? 0 = some ⟨"g1", 8 / 15, true⟩ := by
  obtain ⟨out, hout, hget⟩ :=
    c10_unknown_character_is_self ghostReq 0 ghostMsg rfl rfl
  refine ⟨out, hout, ?_⟩
  rw [hget]
  have hfpc : frames_per_char ghostReq.settings.typing_speed = 3 :=
    frames_per_char_normal
  simp only [hfpc, framesBefore]
  norm_num [FPS, ghostMsg]

/-! ## Claim C3 — viewport auto-scroll (`VideoRenderer.render_frame`,
`renderer.py` lines 490-519)

When the content overflows, the code scans backward from the most recent
message (`for i in range(len(visible_messages) - 1, -1, -1)`), accumulating
heights while they fit and recording `start_index = i`, and breaks at the
first failure; `start_index` was initialised to `0`, so when even the most
recent message (plus indicator) does not fit, the loop breaks at once and
the frame draws from index 0 — every message. -/

/-- The backward accumulation loop (`renderer.py` lines 504-511), applied
to the reversed height list; `idx` is the original index of the element
currently examined, `start` the running `start_index`. -/
def backScanAux (avail : ℕ) : ℕ → ℕ → ℕ → List ℕ → ℕ
  | _, _, start, [] => start
  | total, idx, start, h :: rest =>
      if total + h ≤ avail then backScanAux avail (total + h) (idx - 1) idx rest
      else start

/-- The `start_index` as computed by `render_frame` (lines 497-513): `0` when
everything (plus the typing-indicator height) fits, otherwise the result
of the backward scan seeded with `total = typing_indicator_height` and
`start_index = 0`. -/
def start_index (heights : List ℕ) (indicator avail : ℕ) : ℕ :=
  if heights.sum + indicator ≤ avail then 0
  else backScanAux avail indicator (heights.length - 1) 0 heights.reverse

/-- Length of the longest prefix of `r` whose running sums, started at
`total`, stay within `avail` — the number of messages the backward scan
accepts. -/
def greedyLen (avail : ℕ) : ℕ → List ℕ → ℕ
  | _, [] => 0
  | total, h :: rest =>
      if total + h ≤ avail then greedyLen avail (total + h) rest + 1 else 0

theorem backScanAux_eq (avail : ℕ) :
    ∀ (r : List ℕ) (total idx start : ℕ),
      backScanAux avail total idx start r =
        if greedyLen avail total r = 0 then start
        else idx + 1 - greedyLen avail total r := by
  intro r
  induction r with
  | nil => intro total idx start; simp [backScanAux, greedyLen]
  | cons h rest ih =>
      intro total idx start
      by_cases hc : total + h ≤ avail
      · rw [show backScanAux avail total idx start (h :: rest) =
            backScanAux avail (total + h) (idx - 1) idx rest by
          simp [backScanAux, hc]]
        rw [ih]
        rw [show greedyLen avail total (h :: rest) =
            greedyLen avail (total + h) rest + 1 by simp [greedyLen, hc]]
        by_cases h0 : greedyLen avail (total + h) rest = 0
        · rw [if_pos h0, if_neg (by omega)]; omega
        · rw [if_neg h0, if_neg (by omega)]; omega
      · simp [backScanAux, greedyLen, if_neg hc]

theorem greedyLen_le_length (avail : ℕ) :
    ∀ (r : List ℕ) (total : ℕ), greedyLen avail total r ≤ r.length := by
  intro r
  induction r with
  | nil => intro total; simp [greedyLen]
  | cons h rest ih =>
      intro total
      by_cases hc : total + h ≤ avail
      · simp only [greedyLen, if_pos hc, List.length_cons]
        exact Nat.succ_le_succ (ih (total + h))
      · simp [greedyLen, if_neg hc]

theorem greedyLen_sum_le (avail : ℕ) :
    ∀ (r : List ℕ) (total : ℕ), total ≤ avail →
      total + (r.take (greedyLen avail total r)).sum ≤ avail := by
  intro r
  induction r with
  | nil => intro total ht; simpa [greedyLen] using ht
  | cons h rest ih =>
      intro total ht
      by_cases hc : total + h ≤ avail
      · simp only [greedyLen, if_pos hc, List.take_succ_cons, List.sum_cons]
        have := ih (total + h) hc
        omega
      · simpa [greedyLen, if_neg hc] using ht

theorem sum_reverse_take (l : List ℕ) :
    ∀ (g : ℕ), g ≤ l.length →
      (l.reverse.take g).sum = (l.drop (l.length - g)).sum := by
  induction l using List.reverseRecOn with
  | nil => intro g hg; simp_all
  | append_singleton ys y ih =>
      intro g hg
      cases g with
      | zero => simp
      | succ g' =>
          have hg' : g' ≤ ys.length := by
            simp only [List.length_append, List.length_cons, List.length_nil] at hg
            omega
          have h1 : (ys ++ [y]).reverse = y :: ys.reverse := by
            simp
          rw [h1, List.take_succ_cons, List.sum_cons, ih g' hg']
          have h2 : (ys ++ [y]).length - (g' + 1) = ys.length - g' := by
            simp only [List.length_append, List.length_cons, List.length_nil]
            omega
          rw [h2, List.drop_append_of_le_length (by omega)]
          simp [Nat.add_comm]

/-- C3, counterexample.  Heights `[10, 100]`, no indicator, viewport 50:
the content overflows, the backward scan fails at once on the most recent
message (height 100 > 50), `start_index` stays `0`, and the drawn set is
the whole list with accumulated height `110 > 50` — the claimed invariant
"accumulated height of the drawn suffix (+ indicator) ≤ viewport height"
fails. -/
theorem c3_viewport_counterexample :
    start_index [10, 100] 0 50 = 0 ∧
    50 < List.sum [10, 100] + 0 ∧
    ¬((List.drop (start_index [10, 100] 0 50) [10, 100]).sum + 0 ≤ 50) := by
  decide

/-- C3, amended.  When the content fits, drawing starts at the first
message; the drawn set is always a contiguous suffix ending at the latest
message; and *provided the latest message plus the indicator fits in the
viewport*, an overflowing frame draws a suffix whose accumulated height
plus indicator height is ≤ the viewport height.  (When the latest message
alone overflows, `start_index` falls back to 0 and the bound fails, as the
counterexample shows.) -/
theorem c3_viewport_amended (heights : List ℕ) (indicator avail : ℕ) :
    (heights.sum + indicator ≤ avail → start_index heights indicator avail = 0) ∧
    (heights.drop (start_index heights indicator avail)) <:+ heights ∧
    (∀ hlast, heights.getLast? = some hlast →
      avail < heights.sum + indicator → hlast + indicator ≤ avail →
      (heights.drop (start_index heights indicator avail)).sum + indicator ≤ avail) := by
  refine ⟨fun hfit => by simp [start_index, if_pos hfit], List.drop_suffix _ _, ?_⟩
  intro hlast hl hov hfits
  have hne : heights ≠ [] := by
    intro h; rw [h] at hl; simp at hl
  have hrev : heights.reverse.head? = some hlast := by
    rw [List.head?_reverse]; exact hl
  obtain ⟨tl, htl⟩ : ∃ tl, heights.reverse = hlast :: tl := by
    cases hr : heights.reverse with
    | nil => rw [hr] at hrev; simp at hrev
    | cons a tl =>
        rw [hr] at hrev
        simp only [List.head?_cons, Option.some.injEq] at hrev
        exact ⟨tl, by rw [hrev]⟩
  have hstart : start_index heights indicator avail =
      if greedyLen avail indicator heights.reverse = 0 then 0
      else heights.length - greedyLen avail indicator heights.reverse := by
    rw [start_index, if_neg (by omega), backScanAux_eq]
    have hlen1 : 1 ≤ heights.length := by
      cases heights with
      | nil => exact absurd rfl hne
      | cons a l => simp
    split_ifs with h
    · rfl
    · omega
  have hg1 : 1 ≤ greedyLen avail indicator heights.reverse := by
    rw [htl]
    simp only [greedyLen, if_pos (by omega : indicator + hlast ≤ avail)]
    omega
  have hgle : greedyLen avail indicator heights.reverse ≤ heights.length := by
    have := greedyLen_le_length avail heights.reverse indicator
    simpa using this
  rw [hstart, if_neg (by omega)]
  have hsum := greedyLen_sum_le avail heights.reverse indicator (by omega)
  have hrw := sum_reverse_take heights (greedyLen avail indicator heights.reverse)
    hgle
  rw [hrw] at hsum
  omega

/-- Witness for C3 (amended): heights `[40, 30, 30]`, indicator 0,
viewport 50.  The scan keeps only the last message (`30 + 30 > 50`), so
`start_index = 2` and the drawn suffix sums to `30 ≤ 50`. -/
theorem c3_viewport_amended_witness :
    (List.drop (start_index [40, 30, 30] 0 50) [40, 30, 30]).sum + 0 ≤ 50 :=
  (c3_viewport_amended [40, 30, 30] 0 50).2.2 30 (by decide) (by decide) (by decide)

/-! ## Word wrap — `draw_bubble` (`renderer.py` lines 722-741) and
`calculate_bubble_height` (lines 665-684)

Both methods run the same greedy loop over `text.split()`:
`test_line = f"{current_line} {word}".strip()`, accept while
`draw.textbbox` width ≤ `max_text_width`, else flush `current_line` (when
nonempty) and restart from `word`.  The embedding works on `List Char`
and is parametric in the text-measurement oracle `w` standing for
`draw.textbbox`. -/

/-- Python `str.split()` (no separator): split on whitespace runs,
dropping empty pieces.  `cur` holds the current token reversed. -/
def pySplitAux : List Char → List Char → List (List Char)
  | cur, [] => if cur.isEmpty then [] else [cur.reverse]
  | cur, c :: rest =>
      if c.isWhitespace then
        if cur.isEmpty then pySplitAux [] rest
        else cur.reverse :: pySplitAux [] rest
      else pySplitAux (c :: cur) rest

/-- Python `text.split()`. -/
def pySplit (s : List Char) : List (List Char) := pySplitAux [] s

/-- The test line `f"{current_line} {word}".strip()`: since `current_line` is either
empty or a space-joined sequence of whitespace-free tokens and `word` is a
whitespace-free token, the `strip()` only matters when `current_line` is
empty. -/
def lineJoin (cur word : List Char) : List Char :=
  if cur.isEmpty then word else cur ++ ' ' :: word

/-- The greedy wrap loop shared by `draw_bubble` (lines 727-738) and
`calculate_bubble_height` (lines 674-684): `w` is the rendered-width
oracle (`draw.textbbox`), `maxw` the `max_text_width` limit. -/
def wrapAux (w : List Char → ℕ) (maxw : ℕ) :
    List Char → List (List Char) → List (List Char)
  | cur, [] => if cur.isEmpty then [] else [cur]
  | cur, word :: rest =>
      let test := lineJoin cur word
      if w test ≤ maxw then wrapAux w maxw test rest
      else if cur.isEmpty then wrapAux w maxw word rest
      else cur :: wrapAux w maxw word rest

/-- The wrapped lines of a text. -/
def wrapText (w : List Char → ℕ) (maxw : ℕ) (s : List Char) :
    List (List Char) :=
  wrapAux w maxw [] (pySplit s)

/-- The `draw_bubble` line list including the `if not lines: lines = [text]`
fallback (lines 740-741). -/
def draw_bubble_lines (w : List Char → ℕ) (maxw : ℕ) (s : List Char) :
    List (List Char) :=
  let lines := wrapText w maxw s
  if lines.isEmpty then [s] else lines

/-- Joining lines with single spaces (the operation named by C8). -/
def joinLines : List (List Char) → List Char
  | [] => []
  | [l] => l
  | l :: l2 :: rest => l ++ ' ' :: joinLines (l2 :: rest)

/-- A concrete text-measurement oracle standing in for `draw.textbbox`:
a monospace font, 10 pixels per character. -/
def charWidth10 (l : List Char) : ℕ := 10 * l.length

/-! Properties of `pySplit`. -/

theorem pySplitAux_tokens :
    ∀ (s cur : List Char), (∀ c ∈ cur, c.isWhitespace = false) →
      ∀ x ∈ pySplitAux cur s, x ≠ [] ∧ ∀ c ∈ x, c.isWhitespace = false := by
  intro s
  induction s with
  | nil =>
      intro cur hcur x hx
      by_cases h : cur.isEmpty
      · simp [pySplitAux, h] at hx
      · simp only [pySplitAux, if_neg h, List.mem_singleton] at hx
        subst hx
        refine ⟨by simpa [List.isEmpty_iff] using h, ?_⟩
        intro c hc
        exact hcur c (by simpa using hc)
  | cons c rest ih =>
      intro cur hcur x hx
      by_cases hws : c.isWhitespace
      · by_cases h : cur.isEmpty
        · rw [show pySplitAux cur (c :: rest) = pySplitAux [] rest by
            simp [pySplitAux, hws, h]] at hx
          exact ih [] (by simp) x hx
        · rw [show pySplitAux cur (c :: rest) =
              cur.reverse :: pySplitAux [] rest by
            simp [pySplitAux, hws, h]] at hx
          rcases List.mem_cons.mp hx with h1 | h1
          · subst h1
            refine ⟨by simpa [List.isEmpty_iff] using h, ?_⟩
            intro d hd
            exact hcur d (by simpa using hd)
          · exact ih [] (by simp) x h1
      · rw [show pySplitAux cur (c :: rest) = pySplitAux (c :: cur) rest by
          simp [pySplitAux, hws]] at hx
        refine ih (c :: cur) ?_ x hx
        intro d hd
        rcases List.mem_cons.mp hd with h1 | h1
        · subst h1; simpa using hws
        · exact hcur d h1

theorem pySplit_tokens (s : List Char) :
    ∀ x ∈ pySplit s, x ≠ [] ∧ ∀ c ∈ x, c.isWhitespace = false :=
  pySplitAux_tokens s [] (by simp)

theorem pySplitAux_append_space :
    ∀ (xs ys cur : List Char),
      pySplitAux cur (xs ++ ' ' :: ys) = pySplitAux cur xs ++ pySplitAux [] ys := by
  intro xs
  induction xs with
  | nil =>
      intro ys cur
      by_cases h : cur.isEmpty
      · have hc : cur = [] := by simpa [List.isEmpty_iff] using h
        subst hc
        simp [pySplitAux]
      · simp [pySplitAux, h]
  | cons c xs' ih =>
      intro ys cur
      by_cases hws : c.isWhitespace
      · by_cases h : cur.isEmpty
        · simp only [List.cons_append]
          rw [show pySplitAux cur (c :: (xs' ++ ' ' :: ys)) =
              pySplitAux [] (xs' ++ ' ' :: ys) by simp [pySplitAux, hws, h]]
          rw [show pySplitAux cur (c :: xs') = pySplitAux [] xs' by
            simp [pySplitAux, hws, h]]
          exact ih ys []
        · simp only [List.cons_append]
          rw [show pySplitAux cur (c :: (xs' ++ ' ' :: ys)) =
              cur.reverse :: pySplitAux [] (xs' ++ ' ' :: ys) by
            simp [pySplitAux, hws, h]]
          rw [show pySplitAux cur (c :: xs') =
              cur.reverse :: pySplitAux [] xs' by simp [pySplitAux, hws, h]]
          rw [ih ys []]
          simp
      · simp only [List.cons_append]
        rw [show pySplitAux cur (c :: (xs' ++ ' ' :: ys)) =
            pySplitAux (c :: cur) (xs' ++ ' ' :: ys) by simp [pySplitAux, hws]]
        rw [show pySplitAux cur (c :: xs') = pySplitAux (c :: cur) xs' by
          simp [pySplitAux, hws]]
        exact ih ys (c :: cur)

theorem pySplit_append_space (xs ys : List Char) :
    pySplit (xs ++ ' ' :: ys) = pySplit xs ++ pySplit ys :=
  pySplitAux_append_space xs ys []

theorem pySplitAux_no_ws :
    ∀ (x cur : List Char), (∀ c ∈ x, c.isWhitespace = false) →
      pySplitAux cur x = pySplitAux (x.reverse ++ cur) [] := by
  intro x
  induction x with
  | nil => intro cur _; simp
  | cons c x' ih =>
      intro cur hx
      have hws : c.isWhitespace = false := hx c (by simp)
      rw [show pySplitAux cur (c :: x') = pySplitAux (c :: cur) x' by
        simp [pySplitAux, hws]]
      rw [ih (c :: cur) (fun d hd => hx d (by simp [hd]))]
      simp

theorem pySplit_single (x : List Char) (hne : x ≠ [])
    (hx : ∀ c ∈ x, c.isWhitespace = false) : pySplit x = [x] := by
  unfold pySplit
  rw [pySplitAux_no_ws x [] hx]
  simp [pySplitAux, List.isEmpty_iff, hne]

/-- Splitting a `lineJoin` with a whitespace-free nonempty token. -/
theorem pySplit_lineJoin (cur word : List Char) (hne : word ≠ [])
    (hw : ∀ c ∈ word, c.isWhitespace = false) :
    pySplit (lineJoin cur word) = pySplit cur ++ [word] := by
  by_cases h : cur.isEmpty
  · have hc : cur = [] := by simpa [List.isEmpty_iff] using h
    subst hc
    rw [show lineJoin [] word = word from rfl, pySplit_single word hne hw]
    rfl
  · rw [show lineJoin cur word = cur ++ ' ' :: word by simp [lineJoin, h]]
    rw [pySplit_append_space, pySplit_single word hne hw]

/-! Claim C4 — wrapped-line widths. -/

/-- C4, counterexample.  A single word wider than the limit is emitted as
a line on its own (no hyphenation), and that line's rendered width exceeds
the maximum text width: with a 10 px/char monospace oracle and a 50 px
limit, the 13-character word is kept whole at width 130.  So "every
wrapped line's rendered width ≤ max width" is false. -/
theorem c4_wrap_width_counterexample :
    wrapText charWidth10 50 "extraordinary".toList =
      ["extraordinary".toList] ∧
    ¬(charWidth10 "extraordinary".toList ≤ 50) := by
  constructor
  · rfl
  · decide

/-- C4, amended.  Every line produced by the greedy wrap either has
rendered width ≤ the maximum text width or is one of the original
whitespace-split words placed alone (the unhyphenated over-wide-word
case). -/
theorem c4_wrap_width_amended (w : List Char → ℕ) (maxw : ℕ) (s : List Char)
    (line : List Char) (hline : line ∈ wrapText w maxw s) :
    w line ≤ maxw ∨ line ∈ pySplit s := by
  have main : ∀ (ws : List (List Char)) (cur : List Char),
      (∀ x ∈ ws, x ∈ pySplit s) →
      (cur = [] ∨ w cur ≤ maxw ∨ cur ∈ pySplit s) →
      ∀ l ∈ wrapAux w maxw cur ws, w l ≤ maxw ∨ l ∈ pySplit s := by
    intro ws
    induction ws with
    | nil =>
        intro cur _ hcur l hl
        by_cases h : cur.isEmpty
        · simp [wrapAux, h] at hl
        · simp only [wrapAux, if_neg h, List.mem_singleton] at hl
          subst hl
          rcases hcur with h1 | h1
          · subst h1; simp at h
          · exact h1
    | cons word rest ih =>
        intro cur hws hcur l hl
        have hword : word ∈ pySplit s := hws word (by simp)
        have hrest : ∀ x ∈ rest, x ∈ pySplit s := fun x hx => hws x (by simp [hx])
        by_cases htest : w (lineJoin cur word) ≤ maxw
        · rw [show wrapAux w maxw cur (word :: rest) =
              wrapAux w maxw (lineJoin cur word) rest by
            simp [wrapAux, htest]] at hl
          exact ih (lineJoin cur word) hrest (Or.inr (Or.inl htest)) l hl
        · by_cases hce : cur.isEmpty
          · rw [show wrapAux w maxw cur (word :: rest) =
                wrapAux w maxw word rest by simp [wrapAux, htest, hce]] at hl
            exact ih word hrest (Or.inr (Or.inr hword)) l hl
          · rw [show wrapAux w maxw cur (word :: rest) =
                cur :: wrapAux w maxw word rest by
              simp [wrapAux, htest, hce]] at hl
            rcases List.mem_cons.mp hl with h1 | h1
            · subst h1
              rcases hcur with h2 | h2
              · subst h2; simp at hce
              · exact h2
            · exact ih word hrest (Or.inr (Or.inr hword)) l h1
  exact main (pySplit s) [] (fun x hx => hx) (Or.inl rfl) line hline

/-- Witness for C4 (amended): wrapping `"ab cd"` at 50 px with the
10 px/char oracle yields the single line `"ab cd"`, which satisfies the
width bound. -/
theorem c4_wrap_width_amended_witness :
    charWidth10 "ab cd".toList ≤ 50 ∨
      "ab cd".toList ∈ pySplit "ab cd".toList :=
  c4_wrap_width_amended charWidth10 50 "ab cd".toList "ab cd".toList
    (by decide)

/-! Claim C8 — rejoining wrapped lines reproduces the word sequence. -/

/-- Lemma: `pySplit` distributes over `joinLines`. -/
theorem pySplit_joinLines :
    ∀ (ls : List (List Char)),
      pySplit (joinLines ls) = (ls.map pySplit).flatten := by
  intro ls
  induction ls with
  | nil => simp [joinLines, pySplit, pySplitAux]
  | cons l rest ih =>
      cases rest with
      | nil => simp [joinLines]
      | cons l2 rest' =>
          rw [show joinLines (l :: l2 :: rest') =
              l ++ ' ' :: joinLines (l2 :: rest') from rfl]
          rw [pySplit_append_space, ih]
          simp

/-- The wrap loop preserves the token sequence. -/
theorem wrapAux_tokens (w : List Char → ℕ) (maxw : ℕ) :
    ∀ (ws : List (List Char)) (cur : List Char),
      (∀ x ∈ ws, x ≠ [] ∧ ∀ c ∈ x, c.isWhitespace = false) →
      ((wrapAux w maxw cur ws).map pySplit).flatten = pySplit cur ++ ws := by
  intro ws
  induction ws with
  | nil =>
      intro cur _
      by_cases h : cur.isEmpty
      · have hc : cur = [] := by simpa [List.isEmpty_iff] using h
        subst hc
        simp [wrapAux, pySplit, pySplitAux]
      · simp [wrapAux, h]
  | cons word rest ih =>
      intro cur hws
      obtain ⟨hne, hnws⟩ := hws word (by simp)
      have hrest : ∀ x ∈ rest, x ≠ [] ∧ ∀ c ∈ x, c.isWhitespace = false :=
        fun x hx => hws x (by simp [hx])
      by_cases htest : w (lineJoin cur word) ≤ maxw
      · rw [show wrapAux w maxw cur (word :: rest) =
            wrapAux w maxw (lineJoin cur word) rest by simp [wrapAux, htest]]
        rw [ih (lineJoin cur word) hrest, pySplit_lineJoin cur word hne hnws]
        simp
      · by_cases hce : cur.isEmpty
        · have hc : cur = [] := by simpa [List.isEmpty_iff] using hce
          subst hc
          rw [show wrapAux w maxw [] (word :: rest) =
              wrapAux w maxw word rest by simp [wrapAux, htest]]
          rw [ih word hrest, pySplit_single word hne hnws]
          simp [pySplit, pySplitAux]
        · rw [show wrapAux w maxw cur (word :: rest) =
              cur :: wrapAux w maxw word rest by simp [wrapAux, htest, hce]]
          simp only [List.map_cons, List.flatten_cons]
          rw [ih word hrest, pySplit_single word hne hnws]
          simp

/-- C8.  Joining the wrapped lines (including `draw_bubble`'s
empty-wrap fallback `lines = [text]`) with single spaces yields exactly
the original whitespace-split word sequence, in order. -/
theorem c8_wrap_rejoin (w : List Char → ℕ) (maxw : ℕ) (s : List Char) :
    pySplit (joinLines (draw_bubble_lines w maxw s)) = pySplit s := by
  by_cases h : (wrapText w maxw s).isEmpty
  · rw [show draw_bubble_lines w maxw s = [s] by simp [draw_bubble_lines, h]]
    rfl
  · rw [show draw_bubble_lines w maxw s = wrapText w maxw s by
      simp [draw_bubble_lines, h]]
    rw [pySplit_joinLines]
    unfold wrapText
    rw [wrapAux_tokens w maxw (pySplit s) [] (pySplit_tokens s)]
    rfl

/-! ## Claim C6 — missing sound assets (`VideoRenderer.create_audio`,
`renderer.py` lines 1069-1098)

`create_audio` iterates `message_timings`; for each timing it picks
`send.mp3` (`is_me`) or `receive.mp3` and schedules an `AudioFileClip` at
the timing's time **only if `os.path.exists(sound_path)`**.  A timing
whose asset file is missing contributes nothing, and if no clip was
created at all the method returns `None` (video without audio track).
The synthesizer fallbacks `generate_send_sound` / `generate_receive_sound`
(lines 1123-1166) are defined but never called — not by `create_audio`
nor anywhere else in the repository. -/

/-- One clip scheduled into the composite track: which asset and at what
start time. -/
structure ScheduledClip where
  is_send : Bool
  start : ℚ
deriving DecidableEq, Repr

/-- Model of `VideoRenderer.create_audio` (lines 1069-1098).  `sendExists` /
`receiveExists` model `os.path.exists` on the two asset paths (a file
that exists but fails to decode is likewise dropped by the
`try/except`; the flags model a successful load). -/
def create_audio (sendExists receiveExists : Bool)
    (timings : List MessageTiming) (total_duration : ℚ) :
    Option (List ScheduledClip × ℚ) :=
  if timings.isEmpty then none
  else
    let clips := timings.filterMap (fun t =>
      if t.is_me then
        (if sendExists then some ⟨true, t.time⟩ else none)
      else
        (if receiveExists then some ⟨false, t.time⟩ else none))
    if clips.isEmpty then none
    else some (clips, total_duration)

/-- C6, counterexample.  `send.mp3` missing and a single sent-message cue
at `8/15` s: `create_audio` returns `None` — no audio track at all, hence
no synthesized replacement tone at the cue's time.  The missing asset
silently drops the cue, contradicting the claim. -/
theorem c6_missing_asset_counterexample :
    create_audio false true [⟨"m1", 8 / 15, true⟩] 10 = none := rfl

/-- C6, amended.  A cue whose asset file is missing is skipped outright:
with `send.mp3` absent, every clip in any track `create_audio` produces is
a receive clip (and symmetrically); no synthesized fallback is scheduled
— the generator functions exist in the file but are dead code. -/
theorem c6_missing_asset_amended (receiveExists : Bool)
    (timings : List MessageTiming) (dur : ℚ) (out : List ScheduledClip × ℚ)
    (hout : create_audio false receiveExists timings dur = some out)
    (c : ScheduledClip) (hc : c ∈ out.1) : c.is_send = false := by
  unfold create_audio at hout
  by_cases he : timings.isEmpty
  · rw [if_pos he] at hout; exact absurd hout (by simp)
  · rw [if_neg he] at hout
    by_cases hce : (timings.filterMap (fun t =>
        if t.is_me then (if false then some (⟨true, t.time⟩ : ScheduledClip) else none)
        else (if receiveExists then some ⟨false, t.time⟩ else none))).isEmpty
    · rw [if_pos hce] at hout; exact absurd hout (by simp)
    · rw [if_neg hce] at hout
      have hout' : out.1 = timings.filterMap (fun t =>
          if t.is_me then (if false then some (⟨true, t.time⟩ : ScheduledClip) else none)
          else (if receiveExists then some ⟨false, t.time⟩ else none)) := by
        cases hout; rfl
      rw [hout'] at hc
      obtain ⟨t, -, hf⟩ := List.mem_filterMap.mp hc
      by_cases hm : t.is_me
      · simp [hm] at hf
      · by_cases hr : receiveExists
        · simp only [hm, if_false, Bool.false_eq_true, hr, if_true, if_pos,
            Option.some.injEq] at hf
          cases hf
          rfl
        · simp [hm, hr] at hf

/-- Witness for C6 (amended): `receive.mp3` present, one received cue at
1 s — the produced track's only clip is a receive clip. -/
theorem c6_missing_asset_amended_witness :
    (⟨false, (1 : ℚ)⟩ : ScheduledClip).is_send = false :=
  c6_missing_asset_amended true [⟨"r1", 1, false⟩] 5
    ([⟨false, 1⟩], 5) rfl ⟨false, 1⟩ (by simp)

/-! ## Claim C7 — paginated screenshots -/

/-- Modelled from the spec: the `ScreenshotRenderer` class (with
`render_paginated_to_base64`) is imported by `src/server/main.py` line 26
and used at lines 224-236, but its definition is not present under
`src/`; likewise `ScreenshotRequest`/`ScreenshotMode` are absent from
`src/server/models.py`.  Spec §4.7 (Paginated): "splits the full message
list into consecutive, non-overlapping pages using the same forward
cumulative-height algorithm as §4.3" — accumulate messages into the
current page while the cumulative height stays within the viewport, cut
when adding the next message would exceed it, "with no message ever split
across two pages (a message that alone exceeds the viewport is placed
wholly on its own page)".  `cur` holds the current page reversed, `curH`
its accumulated height. -/
def paginateAux (h : Message → ℕ) (viewport : ℕ) :
    List Message → ℕ → List Message → List (List Message)
  | cur, _, [] => if cur.isEmpty then [] else [cur.reverse]
  | cur, curH, m :: rest =>
      if cur.isEmpty then paginateAux h viewport [m] (h m) rest
      else if curH + h m ≤ viewport then
        paginateAux h viewport (m :: cur) (curH + h m) rest
      else cur.reverse :: paginateAux h viewport [m] (h m) rest

/-- Modelled from the spec: the paginated page split (spec §4.7). -/
def paginate (h : Message → ℕ) (viewport : ℕ)
    (msgs : List Message) : List (List Message) :=
  paginateAux h viewport [] 0 msgs

theorem paginateAux_flatten (h : Message → ℕ) (viewport : ℕ) :
    ∀ (msgs cur : List Message) (curH : ℕ),
      (paginateAux h viewport cur curH msgs).flatten = cur.reverse ++ msgs := by
  intro msgs
  induction msgs with
  | nil =>
      intro cur curH
      by_cases hc : cur.isEmpty
      · have : cur = [] := by simpa [List.isEmpty_iff] using hc
        subst this
        simp [paginateAux]
      · simp [paginateAux, hc]
  | cons m rest ih =>
      intro cur curH
      by_cases hc : cur.isEmpty
      · have hnil : cur = [] := by simpa [List.isEmpty_iff] using hc
        subst hnil
        rw [show paginateAux h viewport [] curH (m :: rest) =
            paginateAux h viewport [m] (h m) rest by simp [paginateAux]]
        rw [ih [m] (h m)]
        simp
      · by_cases hfit : curH + h m ≤ viewport
        · rw [show paginateAux h viewport cur curH (m :: rest) =
              paginateAux h viewport (m :: cur) (curH + h m) rest by
            simp [paginateAux, hc, hfit]]
          rw [ih (m :: cur) (curH + h m)]
          simp
        · rw [show paginateAux h viewport cur curH (m :: rest) =
              cur.reverse :: paginateAux h viewport [m] (h m) rest by
            simp [paginateAux, hc, hfit]]
          rw [List.flatten_cons, ih [m] (h m)]
          simp

theorem paginateAux_pages_nonempty (h : Message → ℕ) (viewport : ℕ) :
    ∀ (msgs cur : List Message) (curH : ℕ),
      ∀ page ∈ paginateAux h viewport cur curH msgs, page ≠ [] := by
  intro msgs
  induction msgs with
  | nil =>
      intro cur curH page hp
      by_cases hc : cur.isEmpty
      · simp [paginateAux, hc] at hp
      · simp only [paginateAux, if_neg hc, List.mem_singleton] at hp
        subst hp
        simp only [ne_eq, List.reverse_eq_nil_iff]
        simpa [List.isEmpty_iff] using hc
  | cons m rest ih =>
      intro cur curH page hp
      by_cases hc : cur.isEmpty
      · rw [show paginateAux h viewport cur curH (m :: rest) =
            paginateAux h viewport [m] (h m) rest by simp [paginateAux, hc]] at hp
        exact ih [m] (h m) page hp
      · by_cases hfit : curH + h m ≤ viewport
        · rw [show paginateAux h viewport cur curH (m :: rest) =
              paginateAux h viewport (m :: cur) (curH + h m) rest by
            simp [paginateAux, hc, hfit]] at hp
          exact ih (m :: cur) (curH + h m) page hp
        · rw [show paginateAux h viewport cur curH (m :: rest) =
              cur.reverse :: paginateAux h viewport [m] (h m) rest by
            simp [paginateAux, hc, hfit]] at hp
          rcases List.mem_cons.mp hp with h1 | h1
          · subst h1
            simp only [ne_eq, List.reverse_eq_nil_iff]
            simpa [List.isEmpty_iff] using hc
          · exact ih [m] (h m) page h1

/-- C7 (spec-modelled).  Concatenating the per-page message ranges of the
paginated split reconstructs the full message list in order — no gaps, no
duplicates — and every page consists of whole messages (a message is
never split across two pages; pages are nonempty). -/
theorem c7_pagination_complete (h : Message → ℕ) (viewport : ℕ)
    (msgs : List Message) :
    (paginate h viewport msgs).flatten = msgs ∧
    ∀ page ∈ paginate h viewport msgs, page ≠ [] := by
  constructor
  · rw [paginate, paginateAux_flatten]
    rfl
  · exact paginateAux_pages_nonempty h viewport msgs [] 0

/-- Witness for C7 at a concrete input: three messages of height 40 in a
viewport of height 100 paginate into `[[a, b], [c]]`, whose concatenation
is the original list; the page `[c]` (picked out of the result) is
nonempty. -/
theorem c7_pagination_complete_witness :
    (paginate (fun m => 40 * m.text.length) 100
        [⟨"a", ['x'], "alice"⟩, ⟨"b", ['y'], "alice"⟩, ⟨"c", ['z'], "alice"⟩]).flatten =
      [⟨"a", ['x'], "alice"⟩, ⟨"b", ['y'], "alice"⟩, ⟨"c", ['z'], "alice"⟩] ∧
    ([⟨"c", ['z'], "alice"⟩] : List Message) ≠ [] :=
  ⟨(c7_pagination_complete _ 100 _).1,
   (c7_pagination_complete (fun m => 40 * m.text.length) 100
      [⟨"a", ['x'], "alice"⟩, ⟨"b", ['y'], "alice"⟩, ⟨"c", ['z'], "alice"⟩]).2
     [⟨"c", ['z'], "alice"⟩] (by decide)⟩

/-! ## Claim C9 — progress reporting

The callback values of one run (collected in `RenderOutput.progress`) are
`0.02`, `0.05`, the per-message values of `progSpec`, then `0.82`, `0.85`,
`0.88`, `0.95` (when sounds are enabled) and `1.0`.  Message `i` of `N`
reports values inside `[baseQ N i, baseQ N (i+1)]` and ends exactly at
`baseQ N (i+1)`, which makes the whole sequence nondecreasing. -/

theorem rangeQ_nonneg (N : ℕ) : (0 : ℚ) ≤ 3 / 4 / (N : ℚ) := by positivity

theorem baseQ_succ (N i : ℕ) :
    baseQ N (i + 1) = baseQ N i + 3 / 4 / (N : ℚ) := by
  unfold baseQ
  push_cast
  ring

theorem typingCallbacks_mem_bounds (L : ℕ) (base range : ℚ)
    (hr : 0 ≤ range) (x : ℚ) (hx : x ∈ typingCallbacks L base range) :
    base ≤ x ∧ x ≤ base + 3 / 5 * range := by
  unfold typingCallbacks at hx
  simp only [List.mem_map, List.mem_filter, List.mem_range] at hx
  obtain ⟨k, ⟨⟨j, hj, rfl⟩, -⟩, rfl⟩ := hx
  have hL : (0 : ℚ) < (L : ℚ) := by
    have : 0 < L := by omega
    exact_mod_cast this
  have h0 : (0 : ℚ) ≤ ((j + 1 : ℕ) : ℚ) / (L : ℚ) := by positivity
  have h1 : ((j + 1 : ℕ) : ℚ) / (L : ℚ) ≤ 1 := by
    rw [div_le_one hL]
    exact_mod_cast hj
  constructor
  · nlinarith
  · nlinarith

theorem typingCallbacks_chain (L : ℕ) (base range : ℚ) (hr : 0 ≤ range) :
    (typingCallbacks L base range).Chain' (· ≤ ·) := by
  unfold typingCallbacks
  refine List.Pairwise.chain' ?_
  have h1 : ((List.range L).map (· + 1)).Pairwise (· < ·) :=
    (List.pairwise_lt_range L).map _ (fun a b hab => by omega)
  have h2 := h1.filter (fun k => k % 3 == 0)
  refine h2.map _ ?_
  intro a b hab
  by_cases hL : (L : ℚ) = 0
  · simp [hL]
  · have hLpos : (0 : ℚ) < (L : ℚ) := by
      rcases lt_or_eq_of_le (Nat.cast_nonneg L : (0:ℚ) ≤ L) with h | h
      · exact h
      · exact absurd h.symm hL
    have hdiv : (a : ℚ) / (L : ℚ) ≤ (b : ℚ) / (L : ℚ) := by
      apply (div_le_div_right hLpos).mpr
      exact_mod_cast hab.le
    nlinarith

theorem msgProgress_chain (N : ℕ) (chars : List Character) (i : ℕ)
    (m : Message) : (msgProgress N chars i m).Chain' (· ≤ ·) := by
  have hr := rangeQ_nonneg N
  unfold msgProgress
  refine List.chain'_append.mpr ⟨?_, ?_, ?_⟩
  · by_cases hme : resolved_is_me chars m
    · simpa [hme] using typingCallbacks_chain m.text.length (baseQ N i) _ hr
    · simp [hme]
  · simp only [List.chain'_cons, List.chain'_singleton, and_true]
    linarith
  · intro x hx y hy
    simp only [List.head?_cons, Option.mem_def, Option.some.injEq] at hy
    subst hy
    by_cases hme : resolved_is_me chars m
    · rw [if_pos hme] at hx
      have := typingCallbacks_mem_bounds m.text.length (baseQ N i) _ hr x
        (List.mem_of_mem_getLast? hx)
      linarith [this.2]
    · rw [if_neg hme] at hx
      simp at hx

theorem msgProgress_bounds (N : ℕ) (chars : List Character) (i : ℕ)
    (m : Message) (x : ℚ) (hx : x ∈ msgProgress N chars i m) :
    baseQ N i ≤ x ∧ x ≤ baseQ N (i + 1) := by
  have hr := rangeQ_nonneg N
  rw [baseQ_succ]
  unfold msgProgress at hx
  rcases List.mem_append.mp hx with h1 | h1
  · by_cases hme : resolved_is_me chars m
    · rw [if_pos hme] at h1
      have := typingCallbacks_mem_bounds m.text.length (baseQ N i) _ hr x h1
      constructor
      · exact this.1
      · linarith [this.2]
    · rw [if_neg hme] at h1; simp at h1
  · rcases List.mem_cons.mp h1 with h2 | h2
    · subst h2; constructor <;> linarith
    · rcases List.mem_cons.mp h2 with h3 | h3
      · subst h3; constructor <;> linarith
      · simp at h3

theorem msgProgress_ne_nil (N : ℕ) (chars : List Character) (i : ℕ)
    (m : Message) : msgProgress N chars i m ≠ [] := by
  unfold msgProgress
  simp

theorem msgProgress_getLast? (N : ℕ) (chars : List Character) (i : ℕ)
    (m : Message) :
    (msgProgress N chars i m).getLast? = some (baseQ N (i + 1)) := by
  rw [baseQ_succ]
  unfold msgProgress
  rw [show (if resolved_is_me chars m = true then
        typingCallbacks m.text.length (baseQ N i) (3 / 4 / (N:ℚ)) else []) ++
      [baseQ N i + 4 / 5 * (3 / 4 / (N:ℚ)), baseQ N i + 3 / 4 / (N:ℚ)] =
      ((if resolved_is_me chars m = true then
        typingCallbacks m.text.length (baseQ N i) (3 / 4 / (N:ℚ)) else []) ++
      [baseQ N i + 4 / 5 * (3 / 4 / (N:ℚ))]) ++ [baseQ N i + 3 / 4 / (N:ℚ)] by
    simp]
  rw [List.getLast?_concat]

theorem progSpec_ne_nil (N : ℕ) (chars : List Character)
    (msgs : List Message) (i0 : ℕ) (h : msgs ≠ []) :
    progSpec N chars i0 msgs ≠ [] := by
  cases msgs with
  | nil => exact absurd rfl h
  | cons m rest =>
      simp only [progSpec, ne_eq, List.append_eq_nil]
      intro hc
      exact msgProgress_ne_nil N chars i0 m hc.1

theorem progSpec_props (N : ℕ) (chars : List Character) :
    ∀ (msgs : List Message) (i0 : ℕ),
      (progSpec N chars i0 msgs).Chain' (· ≤ ·) ∧
      (∀ x ∈ progSpec N chars i0 msgs, baseQ N i0 ≤ x) ∧
      (msgs ≠ [] →
        (progSpec N chars i0 msgs).getLast? =
          some (baseQ N (i0 + msgs.length))) := by
  intro msgs
  induction msgs with
  | nil =>
      intro i0
      refine ⟨by simp [progSpec], by simp [progSpec], fun h => absurd rfl h⟩
  | cons m rest ih =>
      intro i0
      have hr := rangeQ_nonneg N
      refine ⟨?_, ?_, ?_⟩
      · rw [show progSpec N chars i0 (m :: rest) =
            msgProgress N chars i0 m ++ progSpec N chars (i0 + 1) rest from rfl]
        refine List.chain'_append.mpr ⟨msgProgress_chain N chars i0 m,
          (ih (i0 + 1)).1, ?_⟩
        intro x hx y hy
        rw [msgProgress_getLast? N chars i0 m] at hx
        simp only [Option.mem_def, Option.some.injEq] at hx
        subst hx
        exact (ih (i0 + 1)).2.1 y (List.mem_of_mem_head? hy)
      · intro x hx
        rw [show progSpec N chars i0 (m :: rest) =
            msgProgress N chars i0 m ++ progSpec N chars (i0 + 1) rest from rfl] at hx
        rcases List.mem_append.mp hx with h1 | h1
        · exact (msgProgress_bounds N chars i0 m x h1).1
        · have h2 := (ih (i0 + 1)).2.1 x h1
          have h3 : baseQ N i0 ≤ baseQ N (i0 + 1) := by
            rw [baseQ_succ]; linarith
          linarith
      · intro _
        cases rest with
        | nil =>
            rw [show progSpec N chars i0 [m] =
                msgProgress N chars i0 m ++ progSpec N chars (i0 + 1) [] from rfl]
            rw [show progSpec N chars (i0 + 1) ([] : List Message) = [] from rfl,
              List.append_nil, msgProgress_getLast? N chars i0 m]
            simp
        | cons m2 rest2 =>
            rw [show progSpec N chars i0 (m :: m2 :: rest2) =
                msgProgress N chars i0 m ++
                  progSpec N chars (i0 + 1) (m2 :: rest2) from rfl]
            rw [List.getLast?_append_of_ne_nil _
              (progSpec_ne_nil N chars (m2 :: rest2) (i0 + 1) (by simp))]
            rw [(ih (i0 + 1)).2.2 (by simp)]
            have h1 : i0 + 1 + (m2 :: rest2).length =
                i0 + (m :: m2 :: rest2).length := by
              simp only [List.length_cons]
              omega
            rw [h1]

/-- C9.  For every render, the sequence of values passed to the progress
callback is monotonically nondecreasing, begins at the small positive
epsilon `0.02`, and ends at exactly `1.0`. -/
theorem c9_progress_monotone (req : RenderRequest) (out : RenderOutput)
    (hout : render req = .ok out) :
    out.progress.Chain' (· ≤ ·) ∧
    out.progress.head? = some (1 / 50) ∧ (0 : ℚ) < 1 / 50 ∧
    out.progress.getLast? = some 1 := by
  obtain ⟨-, -, hprog⟩ := render_components req out hout
  rw [hprog]
  have hP := progSpec_props req.messages.length req.characters req.messages 0
  have hbase0 : baseQ req.messages.length 0 = 1 / 20 := by
    unfold baseQ
    norm_num
  have htail : (([41 / 50, 17 / 20, 22 / 25] ++
      (if req.settings.enable_sounds then [(19 : ℚ) / 20] else []) ++
      [1])).Chain' (· ≤ ·) := by
    by_cases hs : req.settings.enable_sounds <;>
      · simp only [hs, if_true, if_false, List.cons_append, List.nil_append]
        norm_num [List.chain'_cons, List.chain'_singleton]
  refine ⟨?_, rfl, by norm_num, ?_⟩
  · refine List.chain'_append.mpr ⟨?_, htail, ?_⟩
    · refine List.chain'_append.mpr ⟨?_, hP.1, ?_⟩
      · norm_num [List.chain'_cons, List.chain'_singleton]
      · intro x hx y hy
        have hx' : x = 1 / 20 := by
          have : ([1 / 50, 1 / 20] : List ℚ).getLast? = some (1 / 20) := rfl
          rw [this] at hx
          exact (by simpa using hx : (1:ℚ)/20 = x).symm
        subst hx'
        have := hP.2.1 y (List.mem_of_mem_head? hy)
        rw [hbase0] at this
        exact this
    · intro x hx y hy
      have hy' : y = 41 / 50 := by
        have : (([41 / 50, 17 / 20, 22 / 25] ++
            (if req.settings.enable_sounds then [(19 : ℚ) / 20] else []) ++
            [1])).head? = some (41 / 50) := by
          simp [List.cons_append]
        rw [this] at hy
        exact (by simpa using hy : (41:ℚ)/50 = y).symm
      subst hy'
      by_cases hm : req.messages = []
      · have hmid : progSpec req.messages.length req.characters 0 req.messages =
            [] := by
          rw [hm]; rfl
        rw [hmid, List.append_nil] at hx
        have hx' : x = 1 / 20 := by
          have : ([1 / 50, 1 / 20] : List ℚ).getLast? = some (1 / 20) := rfl
          rw [this] at hx
          exact (by simpa using hx : (1:ℚ)/20 = x).symm
        subst hx'
        norm_num
      · rw [List.getLast?_append_of_ne_nil _
          (progSpec_ne_nil req.messages.length req.characters req.messages 0 hm)]
          at hx
        rw [hP.2.2 hm] at hx
        have hx' : x = baseQ req.messages.length req.messages.length := by
          exact (by simpa using hx :
            baseQ req.messages.length req.messages.length = x).symm
        subst hx'
        have hNne : ((req.messages.length : ℚ)) ≠ 0 := by
          exact_mod_cast fun h => hm (List.length_eq_zero.mp h)
        unfold baseQ
        rw [div_self hNne]
        norm_num
  · rw [List.getLast?_append_of_ne_nil _ (by simp), List.getLast?_concat]

/-- Witness for C9 at the concrete empty-conversation request. -/
theorem c9_progress_monotone_witness :
    ∃ out, render emptyReq = .ok out ∧
      (out.progress.Chain' (· ≤ ·) ∧
       out.progress.head? = some (1 / 50) ∧ (0 : ℚ) < 1 / 50 ∧
       out.progress.getLast? = some 1) := by
  obtain ⟨out, hout⟩ : ∃ o, render emptyReq = .ok o := ⟨_, rfl⟩
  exact ⟨out, hout, c9_progress_monotone emptyReq out hout⟩

end ChatStory
